import Mathlib

/-!
Verification of the SimPricing GBM path-generation engine against its
specification.  The Python source (src/base/engine.py) is shallowly embedded
below: floating-point numbers are modelled as real numbers, numpy arrays as
lists of reals, the dynamic kwargs dictionary as a record of optional fields,
and Python exceptions as an explicit error type threaded through Except.
Randomness enters only through the matrix of raw standard-normal draws, which
is taken as an explicit input of the embedded generator.
-/

noncomputable section

namespace SimPricing

/-- Elementwise combination of three equal-length vectors, used for the
per-asset multiplicative update of the simulation loop. -/
def zipWith3 (f : ℝ → ℝ → ℝ → ℝ) : List ℝ → List ℝ → List ℝ → List ℝ
  | a :: as, b :: bs, c :: cs => f a b c :: zipWith3 f as bs cs
  | _, _, _ => []

/-- One step of the price update: previous price vector times
exp((r - sigma^2/2) * dt + sigma * eps * sqrt dt), elementwise. -/
def stepVec (r t : ℝ) (sArr sigma epsCol : List ℝ) : List ℝ :=
  zipWith3 (fun s sg e => s * Real.exp ((r - sg ^ 2 / 2) * t + sg * e * Real.sqrt t))
    sArr sigma epsCol

/-- The loop body of the jitted simulation loop: iterates over the time deltas,
keeping the current price vector, consing each updated vector onto the output
path.  The counter i tracks the column of the shock matrix being consumed. -/
def simLoopGo (r : ℝ) (sigma : List ℝ) (eps : ℕ → List ℝ) :
    List ℝ → List ℝ → ℕ → List (List ℝ)
  | _, [], _ => []
  | sArr, t :: ts, i =>
    stepVec r t sArr sigma (eps i) ::
      simLoopGo r sigma eps (stepVec r t sArr sigma (eps i)) ts (i + 1)

/-- Embedding of the source function performing the geometric Brownian path
evolution: the price vector starts as the initial price replicated across the
n assets, and each time delta multiplies it elementwise by the exponential
update; the shock matrix is consumed column by column. -/
def fastSimLoopGeoBrownian (s_0 : ℝ) (nDim : ℕ) (tDiff : List ℝ)
    (sigma : List ℝ) (r : ℝ) (eps : ℕ → List ℝ) : List (List ℝ) :=
  simLoopGo r sigma eps (List.replicate nDim s_0) tDiff 0

theorem simLoopGo_length (r : ℝ) (sigma : List ℝ) (eps : ℕ → List ℝ)
    (tD : List ℝ) : ∀ (sArr : List ℝ) (i : ℕ),
    (simLoopGo r sigma eps sArr tD i).length = tD.length := by
  induction tD with
  | nil => intro sArr i; rfl
  | cons t ts ih => intro sArr i; simp [simLoopGo, ih]

theorem simLoopGo_get_zero (r : ℝ) (sigma : List ℝ) (eps : ℕ → List ℝ)
    (t : ℝ) (ts : List ℝ) (sArr : List ℝ) (i : ℕ) :
    (simLoopGo r sigma eps sArr (t :: ts) i).get? 0 =
      some (stepVec r t sArr sigma (eps i)) := rfl

theorem simLoopGo_get_succ (r : ℝ) (sigma : List ℝ) (eps : ℕ → List ℝ) :
    ∀ (tD : List ℝ) (sArr : List ℝ) (i k : ℕ) (tk : ℝ) (prev : List ℝ),
    tD.get? (k + 1) = some tk →
    (simLoopGo r sigma eps sArr tD i).get? k = some prev →
    (simLoopGo r sigma eps sArr tD i).get? (k + 1) =
      some (stepVec r tk prev sigma (eps (i + k + 1))) := by
  intro tD
  induction tD with
  | nil => intro sArr i k tk prev ht _; simp at ht
  | cons t ts ih =>
    intro sArr i k tk prev ht hp
    cases k with
    | zero =>
      simp only [List.get?_cons_succ, List.get?_cons_zero] at ht
      simp only [simLoopGo, List.get?_cons_zero, Option.some.injEq] at hp
      cases ts with
      | nil => simp at ht
      | cons t1 ts1 =>
        simp only [List.get?_cons_zero, Option.some.injEq] at ht
        subst ht
        simp [simLoopGo, hp]
    | succ k1 =>
      simp only [List.get?_cons_succ] at ht hp ⊢
      simp only [simLoopGo] at hp ⊢
      cases k1 with
      | zero =>
        have := ih (stepVec r t sArr sigma (eps i)) (i + 1) 0 tk prev ht hp
        simpa [Nat.add_assoc, Nat.add_comm, Nat.add_left_comm] using this
      | succ k2 =>
        have := ih (stepVec r t sArr sigma (eps i)) (i + 1) (k2 + 1) tk prev ht hp
        simpa [Nat.add_assoc, Nat.add_comm, Nat.add_left_comm] using this

/-- C1: for every initial price, dimension, time-delta sequence, volatility
vector, drift and shock matrix, the path evolver returns one price vector per
time delta, the vector at step 0 is the all-s_0 vector updated by the
exponential factor for the first delta, and the vector at each later step t
is the vector at step t-1 multiplied elementwise by
exp((r - sigma^2/2) * dt_t + sigma * eps_t * sqrt dt_t). -/
theorem fastSimLoop_step_recurrence (s_0 r : ℝ) (n : ℕ) (tDiff sigma : List ℝ)
    (eps : ℕ → List ℝ) :
    (fastSimLoopGeoBrownian s_0 n tDiff sigma r eps).length = tDiff.length ∧
    (∀ t0 : ℝ, tDiff.get? 0 = some t0 →
      (fastSimLoopGeoBrownian s_0 n tDiff sigma r eps).get? 0 =
        some (stepVec r t0 (List.replicate n s_0) sigma (eps 0))) ∧
    (∀ (k : ℕ) (tk : ℝ) (prev : List ℝ), tDiff.get? (k + 1) = some tk →
      (fastSimLoopGeoBrownian s_0 n tDiff sigma r eps).get? k = some prev →
      (fastSimLoopGeoBrownian s_0 n tDiff sigma r eps).get? (k + 1) =
        some (stepVec r tk prev sigma (eps (k + 1)))) := by
  refine ⟨simLoopGo_length r sigma eps tDiff _ 0, ?_, ?_⟩
  · intro t0 ht
    cases tDiff with
    | nil => simp at ht
    | cons t ts =>
      simp only [List.get?_cons_zero, Option.some.injEq] at ht
      rw [← ht]
      exact simLoopGo_get_zero r sigma eps t ts _ 0
  · intro k tk prev ht hp
    have := simLoopGo_get_succ r sigma eps tDiff (List.replicate n s_0) 0 k tk prev ht hp
    simpa using this

/-- Witness for C1 at a concrete input: two time steps, one asset, zero
shocks; the hypotheses of the recurrence are discharged by computation. -/
theorem fastSimLoop_step_recurrence_witness :
    (([1, 4] : List ℝ).get? 0 = some 1) ∧
    (fastSimLoopGeoBrownian 1 1 [1, 4] [1] 0 (fun _ => [0])).get? 0 =
      some (stepVec 0 1 (List.replicate 1 1) [1] [0]) := by
  refine ⟨rfl, ?_⟩
  exact (fastSimLoop_step_recurrence 1 0 1 [1, 4] [1] (fun _ => [0])).2.1 1 rfl

theorem zipWith3_map_left_replicate (f : ℝ → ℝ → ℝ → ℝ) (g : ℝ → ℝ) (z : ℝ) :
    ∀ l : List ℝ, zipWith3 f (l.map g) l (List.replicate l.length z)
      = l.map (fun sg => f (g sg) sg z) := by
  intro l
  induction l with
  | nil => rfl
  | cons a as ih => simp [zipWith3, List.replicate_succ, ih]

theorem stepVec_zero_shock (s_0 r t A : ℝ) (sigma : List ℝ) :
    stepVec r t (sigma.map fun sg => s_0 * Real.exp ((r - sg ^ 2 / 2) * A)) sigma
      (List.replicate sigma.length 0)
    = sigma.map fun sg => s_0 * Real.exp ((r - sg ^ 2 / 2) * (A + t)) := by
  rw [stepVec, zipWith3_map_left_replicate]
  refine List.map_congr_left ?_
  intro sg _
  rw [mul_zero, zero_mul, add_zero, mul_add, Real.exp_add]
  ring

theorem simLoopGo_zero_shock (s_0 r : ℝ) (sigma : List ℝ) :
    ∀ (tD : List ℝ) (k i : ℕ) (A : ℝ), k < tD.length →
    (simLoopGo r sigma (fun _ => List.replicate sigma.length 0)
        (sigma.map fun sg => s_0 * Real.exp ((r - sg ^ 2 / 2) * A)) tD i).get? k
      = some (sigma.map fun sg =>
          s_0 * Real.exp ((r - sg ^ 2 / 2) * (A + (tD.take (k + 1)).sum))) := by
  intro tD
  induction tD with
  | nil => intro k i A hk; simp at hk
  | cons t ts ih =>
    intro k i A hk
    cases k with
    | zero =>
      simp only [simLoopGo, List.get?_cons_zero, Option.some.injEq,
        stepVec_zero_shock, List.take, List.sum_cons, List.sum_nil]
      refine List.map_congr_left ?_
      intro sg _
      norm_num
    | succ k1 =>
      simp only [simLoopGo, List.get?_cons_succ, stepVec_zero_shock]
      have hk1 : k1 < ts.length := by simpa using hk
      rw [ih k1 (i + 1) (A + t) hk1]
      simp only [Option.some.injEq, List.take, List.sum_cons]
      refine List.map_congr_left ?_
      intro sg _
      ring_nf

/-- C5: with every shock equal to zero the path evolver degenerates to the
pure drift solution: the price at step t is s_0 times
exp((r - sigma^2/2) * cumulative-time-up-to-t), for every asset; in
particular for s_0 = 100, sigma = 0, r = 0.03 and a single step of length 1
the single output price is 100 * exp 0.03. -/
theorem zero_shock_drift (s_0 r : ℝ) (n : ℕ) (sigma tDiff : List ℝ)
    (hσ : sigma.length = n) :
    (∀ k : ℕ, k < tDiff.length →
      (fastSimLoopGeoBrownian s_0 n tDiff sigma r
          (fun _ => List.replicate n 0)).get? k
        = some (sigma.map fun sg =>
            s_0 * Real.exp ((r - sg ^ 2 / 2) * (tDiff.take (k + 1)).sum))) ∧
    fastSimLoopGeoBrownian 100 1 [1] [0] 0.03 (fun _ => [0])
      = [[100 * Real.exp 0.03]] := by
  constructor
  · intro k hk
    subst hσ
    have hstart : List.replicate sigma.length s_0
        = sigma.map fun sg => s_0 * Real.exp ((r - sg ^ 2 / 2) * 0) := by
      rw [show (sigma.map fun sg => s_0 * Real.exp ((r - sg ^ 2 / 2) * 0))
            = sigma.map fun _ => s_0 by
          refine List.map_congr_left ?_
          intro sg _
          rw [mul_zero, Real.exp_zero, mul_one]]
      simp [List.map_const']
    rw [fastSimLoopGeoBrownian, hstart, simLoopGo_zero_shock s_0 r sigma tDiff k 0 0 hk]
    simp
  · rw [fastSimLoopGeoBrownian]
    simp only [List.replicate, simLoopGo, stepVec, zipWith3]
    norm_num

/-- Witness for C5 at the concrete single-step input of the claim. -/
theorem zero_shock_drift_witness :
    (([0] : List ℝ).length = 1) ∧
    (fastSimLoopGeoBrownian 100 1 [1] [0] 0.03
        (fun _ => List.replicate 1 0)).get? 0
      = some (([0] : List ℝ).map fun sg =>
          (100 : ℝ) * Real.exp ((0.03 - sg ^ 2 / 2) * (([1] : List ℝ).take 1).sum)) :=
  ⟨rfl, (zero_shock_drift 100 0.03 1 [0] [1] rfl).1 0 (by norm_num)⟩

/-- Values a caller may pass for the sigma keyword: a bare float, a Python
list of floats, or another iterable such as a tuple of floats.  The source
distinguishes lists (by an isinstance check against list) from general
iterables (by an isinstance check against Iterable). -/
inductive SigmaParam where
  | scalar (x : ℝ)
  | list (xs : List ℝ)
  | tuple (xs : List ℝ)

/-- True exactly for the Python-list shape of the sigma parameter. -/
def SigmaParam.isList : SigmaParam → Bool
  | .list _ => true
  | _ => false

/-- True for any iterable shape of the sigma parameter (list or tuple). -/
def SigmaParam.isIterable : SigmaParam → Bool
  | .scalar _ => false
  | _ => true

/-- The sigma array built inside the generator: iterables are used as
supplied, a scalar is wrapped into a one-element array. -/
def SigmaParam.asArray : SigmaParam → List ℝ
  | .scalar x => [x]
  | .list xs => xs
  | .tuple xs => xs

/-- The dimension count the engine derives from sigma: the length when sigma
is a Python list, and 1 for every other shape. -/
def SigmaParam.nDimVal : SigmaParam → ℕ
  | .list xs => xs.length
  | _ => 1

/-- A correlation-matrix argument: its payload rows together with whether the
caller passed a numpy matrix (rather than a plain ndarray or nested lists). -/
structure RhoParam where
  isNpMatrix : Bool
  data : List (List ℝ)

/-- The keyword arguments of the engine constructor: each whitelisted key is
optional, and extraKeys lists any further keys the caller supplied. -/
structure Kwargs where
  sigma : Option SigmaParam
  r : Option ℝ
  rho : Option RhoParam
  extraKeys : List String

/-- The keys present in a keyword-argument record, in dictionary order. -/
def Kwargs.keys (k : Kwargs) : List String :=
  (if k.sigma.isSome then ["sigma"] else []) ++
    (if k.r.isSome then ["r"] else []) ++
    (if k.rho.isSome then ["rho"] else []) ++ k.extraKeys

/-- Python exceptions raised by the engine. -/
inductive PyError where
  | valueError (msg : String)
  | keyError (key : String)
  | linAlgError (msg : String)

/-- The engine state after a successful construction. -/
structure SimEngine where
  method : String
  s_0 : ℝ
  kwargs : Kwargs

/-- The supported methods. -/
def fullMethods : List String := ["GeoBrownian"]

/-- The keyword whitelist per method. -/
def fullKwargMap (method : String) : List String :=
  if method = "GeoBrownian" then ["sigma", "r", "rho"] else []

/-- Embedding of the engine constructor: it rejects an unknown method name,
then rejects any supplied key outside the whitelist of the chosen method, and
otherwise stores the arguments unchanged.  No other validation happens. -/
def simEngineInit (method : String) (s_0 : ℝ) (kwargs : Kwargs) :
    Except PyError SimEngine :=
  if method ∈ fullMethods then
    if kwargs.keys.all (fun key => (fullKwargMap method).contains key) then
      .ok ⟨method, s_0, kwargs⟩
    else
      .error (.valueError "Illegal input of kwargs!")
  else
    .error (.valueError "Illegal input of method!")

/-- Embedding of the n-dim property: re-reads sigma from the stored kwargs on
every query, raising a key error when sigma is absent. -/
def SimEngine.n_dim (e : SimEngine) : Except PyError ℕ :=
  if e.method = "GeoBrownian" then
    match e.kwargs.sigma with
    | none => .error (.keyError "sigma")
    | some s => .ok s.nDimVal
  else
    .error (.valueError "")

/-- A well-formed two-asset keyword record with a length-two tuple sigma,
used to exhibit the gap between the spec wording and the list-only check. -/
def kwargsTupleSigma : Kwargs := ⟨some (.tuple [0.2, 0.3]), some 0.03, none, []⟩

/-- Counterexample to C3 as stated: a configuration whose sigma is a
two-element tuple (a sequence of length 2) is constructed successfully, yet
the derived dimension count is 1, not 2. -/
theorem n_dim_tuple_counterexample :
    simEngineInit "GeoBrownian" 100 kwargsTupleSigma
      = .ok ⟨"GeoBrownian", 100, kwargsTupleSigma⟩ ∧
    (SimEngine.mk "GeoBrownian" 100 kwargsTupleSigma).n_dim = .ok 1 ∧
    (Except.ok 1 : Except PyError ℕ) ≠ .ok 2 := by
  refine ⟨?_, rfl, by simp⟩
  rw [simEngineInit]
  rfl

/-- C3 amended: the derived dimension count equals the length of sigma only
when sigma is a Python list; for a scalar or any other iterable (for example
a tuple) it equals 1.  The derivation is a pure function of the stored
kwargs, recomputed on each query. -/
theorem n_dim_list_rule (s_0 : ℝ) (k : Kwargs) (e : SimEngine) (s : SigmaParam)
    (hinit : simEngineInit "GeoBrownian" s_0 k = .ok e)
    (hs : k.sigma = some s) :
    (∀ xs : List ℝ, s = .list xs → e.n_dim = .ok xs.length) ∧
    (s.isList = false → e.n_dim = .ok 1) := by
  rw [simEngineInit] at hinit
  simp only [fullMethods, List.mem_singleton, if_pos rfl] at hinit
  by_cases hkeys : k.keys.all (fun key => (fullKwargMap "GeoBrownian").contains key) = true
  · rw [if_pos hkeys] at hinit
    cases hinit
    constructor
    · intro xs hxs
      simp [SimEngine.n_dim, hs, hxs, SigmaParam.nDimVal]
    · intro hnot
      cases s with
      | scalar x => simp [SimEngine.n_dim, hs, SigmaParam.nDimVal]
      | list xs => simp [SigmaParam.isList] at hnot
      | tuple xs => simp [SimEngine.n_dim, hs, SigmaParam.nDimVal]
  · rw [if_neg hkeys] at hinit
    cases hinit

/-- Witness for the amended C3 at a concrete scalar-sigma configuration. -/
theorem n_dim_list_rule_witness :
    (simEngineInit "GeoBrownian" 100 ⟨some (.scalar 0.2), some 0.03, none, []⟩
        = .ok ⟨"GeoBrownian", 100, ⟨some (.scalar 0.2), some 0.03, none, []⟩⟩) ∧
    (SimEngine.mk "GeoBrownian" 100 ⟨some (.scalar 0.2), some 0.03, none, []⟩).n_dim
      = .ok 1 := by
  refine ⟨?_, ?_⟩
  · rw [simEngineInit]; rfl
  · exact (n_dim_list_rule 100 ⟨some (.scalar 0.2), some 0.03, none, []⟩
      _ _ (by rw [simEngineInit]; rfl) rfl).2 rfl

/-- A plain one-asset keyword record. -/
def kwargsBasic : Kwargs := ⟨some (.scalar 0.2), some 0.03, none, []⟩

/-- Counterexample to C4 as stated: construction with initial price 0 (and
likewise any nonpositive price) succeeds instead of failing. -/
theorem init_accepts_zero_price :
    simEngineInit "GeoBrownian" 0 kwargsBasic
      = .ok ⟨"GeoBrownian", 0, kwargsBasic⟩ := by
  rw [simEngineInit]
  rfl

/-- C4 amended: the constructor performs no validation of the initial price;
a zero or negative s_0 is accepted whenever the method name and the keyword
keys are valid. -/
theorem init_accepts_nonpositive_price (s_0 : ℝ) (k : Kwargs)
    (_hneg : s_0 ≤ 0)
    (hkeys : k.keys.all (fun key => (fullKwargMap "GeoBrownian").contains key) = true) :
    simEngineInit "GeoBrownian" s_0 k = .ok ⟨"GeoBrownian", s_0, k⟩ := by
  have h2 : ∀ key ∈ k.keys, key ∈ fullKwargMap "GeoBrownian" := by simpa using hkeys
  rw [simEngineInit]
  simp [fullMethods]
  exact h2

/-- Witness for the amended C4 at the concrete price -1. -/
theorem init_accepts_nonpositive_price_witness :
    ((-1 : ℝ) ≤ 0) ∧
    simEngineInit "GeoBrownian" (-1) kwargsBasic
      = .ok ⟨"GeoBrownian", -1, kwargsBasic⟩ :=
  ⟨by norm_num, init_accepts_nonpositive_price (-1) kwargsBasic (by norm_num) (by decide)⟩

/-- Dot product of two real vectors, truncating at the shorter one. -/
def dotL (v w : List ℝ) : ℝ := (List.zipWith (· * ·) v w).sum

/-- Column j of a row-major matrix (entries past a row end read as 0). -/
def getCol (m : List (List ℝ)) (j : ℕ) : List ℝ := m.map (fun row => row.getD j 0)

/-- Number of columns of a row-major matrix, read from its first row. -/
def colsOf (m : List (List ℝ)) : ℕ := (m.headD []).length

/-- Row-major matrix product. -/
def matMulL (a b : List (List ℝ)) : List (List ℝ) :=
  a.map (fun arow => (List.range (colsOf b)).map (fun j => dotL arow (getCol b j)))

/-- The Schur complement step of the Cholesky recursion: from pivot a, first
column c and trailing block b it forms b minus the outer product of c with
itself divided by a. -/
def schurL (a : ℝ) (c : List ℝ) (b : List (List ℝ)) : List (List ℝ) :=
  List.zipWith (fun ci bi => List.zipWith (fun cj bij => bij - ci * cj / a) c bi) c b

/-- Cholesky factorization in the lower-triangle reading order of the
underlying LAPACK routine: it succeeds exactly when every pivot is positive,
and then returns the lower-triangular factor. -/
def cholL : List (List ℝ) → Option (List (List ℝ))
  | [] => some []
  | row :: rows =>
    if 0 < row.headI then
      match cholL (schurL row.headI (rows.map (fun rr => rr.headI))
          (rows.map (fun rr => rr.tail))) with
      | some l2 =>
        some ((Real.sqrt row.headI :: List.replicate rows.length 0) ::
          List.zipWith (fun ci l2i => ci / Real.sqrt row.headI :: l2i)
            (rows.map (fun rr => rr.headI)) l2)
      | none => none
    else none
termination_by m => m.length
decreasing_by
  simp only [schurL, List.length_zipWith, List.length_map, List.length_cons, min_self]
  omega

/-- Squareness test the linear-algebra routine applies before decomposing. -/
def isSquareB (d : List (List ℝ)) : Bool := d.all (fun row => row.length == d.length)

/-- Embedding of the numpy Cholesky call: it rejects a non-square input, then
either returns the factor or raises the decomposition error. -/
def npCholesky (d : List (List ℝ)) : Except PyError (List (List ℝ)) :=
  if isSquareB d then
    match cholL d with
    | some l => .ok l
    | none => .error (.linAlgError "Matrix is not positive definite")
  else .error (.linAlgError "Last 2 dimensions of the array must be square")

/-- The correlation factor: the scalar one in the single-asset branch, or the
Cholesky factor in the multi-asset branch. -/
inductive CorrFactor where
  | one
  | mat (l : List (List ℝ))

/-- Applying the correlation factor to the raw draw matrix: multiplying by
the scalar one leaves it unchanged, a matrix factor left-multiplies it. -/
def applyFactor : CorrFactor → List (List ℝ) → List (List ℝ)
  | .one, x => x
  | .mat l, x => matMulL l x

/-- Everything the generator computes before consuming the random draws. -/
structure SetupData where
  nDim : ℕ
  tDiff : List ℝ
  sigmaArray : List ℝ
  r : ℝ
  factor : CorrFactor

/-- Consecutive differences with a prepended zero, as the numpy diff call
with a zero prepend produces them. -/
def diffPrepend0 (u : List ℝ) : List ℝ := List.zipWith (fun a b => a - b) u (0 :: u)

/-- The setup phase of the generator, in source order: method dispatch, sigma
lookup, r lookup, time differencing, then for more than one dimension the rho
lookup, the Cholesky factorization, the numpy-matrix type check and the
dimension check.  Every failure here happens before any random draw is
consumed. -/
def SimEngine.prcSetup (e : SimEngine) (upperT : List ℝ) : Except PyError SetupData :=
  if e.method = "GeoBrownian" then
    match e.kwargs.sigma with
    | none => .error (.keyError "sigma")
    | some sigmaRaw =>
      match e.kwargs.r with
      | none => .error (.keyError "r")
      | some r =>
        if sigmaRaw.nDimVal > 1 then
          match e.kwargs.rho with
          | none => .error (.keyError "rho")
          | some rho =>
            match npCholesky rho.data with
            | .error err => .error err
            | .ok l =>
              if rho.isNpMatrix = false then
                .error (.valueError "Illegal input type of rho")
              else if rho.data.length ≠ colsOf rho.data ∨
                  rho.data.length ≠ sigmaRaw.nDimVal then
                .error (.valueError "Illegal input dimension of rho")
              else
                .ok ⟨sigmaRaw.nDimVal, diffPrepend0 upperT, sigmaRaw.asArray, r, .mat l⟩
        else
          .ok ⟨sigmaRaw.nDimVal, diffPrepend0 upperT, sigmaRaw.asArray, r, .one⟩
  else
    .error (.valueError "")

/-- The correlated shock matrix the generator feeds to the path evolver,
given the raw draw matrix x. -/
def SimEngine.epsilonOf (e : SimEngine) (upperT : List ℝ) (x : List (List ℝ)) :
    Except PyError (List (List ℝ)) :=
  match e.prcSetup upperT with
  | .error err => .error err
  | .ok sd => .ok (applyFactor sd.factor x)

/-- Embedding of the price generator: after the setup phase it correlates
the raw draws and runs the path evolution loop. -/
def SimEngine.prc_generator (e : SimEngine) (upperT : List ℝ) (x : List (List ℝ)) :
    Except PyError (List (List ℝ)) :=
  match e.prcSetup upperT with
  | .error err => .error err
  | .ok sd =>
    .ok (fastSimLoopGeoBrownian e.s_0 sd.nDim sd.tDiff sd.sigmaArray sd.r
      (fun i => getCol (applyFactor sd.factor x) i))

/-- C9: construction with the sigma key omitted succeeds, because the
constructor checks only the method name and the key whitelist; the missing
parameter surfaces later as a key-lookup error, both when the dimension
count is queried and when the simulate call is made. -/
theorem missing_sigma_late_failure (s_0 : ℝ) (k : Kwargs)
    (hsig : k.sigma = none) (hextra : k.extraKeys = []) :
    simEngineInit "GeoBrownian" s_0 k = .ok ⟨"GeoBrownian", s_0, k⟩ ∧
    (SimEngine.mk "GeoBrownian" s_0 k).n_dim = .error (.keyError "sigma") ∧
    ∀ (upperT : List ℝ) (x : List (List ℝ)),
      (SimEngine.mk "GeoBrownian" s_0 k).prc_generator upperT x
        = .error (.keyError "sigma") := by
  refine ⟨?_, ?_, ?_⟩
  · have h2 : ∀ key ∈ k.keys, key ∈ fullKwargMap "GeoBrownian" := by
      rcases k with ⟨ks, kr, krho, kx⟩
      simp only at hsig hextra
      subst hsig
      subst hextra
      cases kr <;> cases krho <;> simp [Kwargs.keys, fullKwargMap]
    rw [simEngineInit]
    simp [fullMethods]
    exact h2
  · simp [SimEngine.n_dim, hsig]
  · intro u x
    simp [SimEngine.prc_generator, SimEngine.prcSetup, hsig]

/-- Witness for C9 at a concrete keyword record carrying only r. -/
theorem missing_sigma_late_failure_witness :
    ((⟨none, some 0.03, none, []⟩ : Kwargs).sigma = none) ∧
    simEngineInit "GeoBrownian" 100 ⟨none, some 0.03, none, []⟩
      = .ok ⟨"GeoBrownian", 100, ⟨none, some 0.03, none, []⟩⟩ :=
  ⟨rfl, (missing_sigma_late_failure 100 ⟨none, some 0.03, none, []⟩ rfl rfl).1⟩

/-- C6: when the derived dimension count is 1 the correlation factor is the
scalar one, the shock matrix fed to the path evolver is the raw draw matrix
unchanged, and the rho parameter is never consulted: replacing it by any
other value leaves every simulate call unchanged. -/
theorem dim_one_shocks_unchanged (e : SimEngine) (s : SigmaParam) (rv : ℝ)
    (hm : e.method = "GeoBrownian") (hs : e.kwargs.sigma = some s)
    (h1 : s.nDimVal = 1) (hr : e.kwargs.r = some rv) :
    (∀ (u : List ℝ) (x : List (List ℝ)), e.epsilonOf u x = .ok x) ∧
    (∀ u : List ℝ, e.prcSetup u = .ok ⟨1, diffPrepend0 u, s.asArray, rv, .one⟩) ∧
    (∀ (rho1 rho2 : Option RhoParam) (u : List ℝ) (x : List (List ℝ)),
      (SimEngine.mk e.method e.s_0
          ⟨e.kwargs.sigma, e.kwargs.r, rho1, e.kwargs.extraKeys⟩).prc_generator u x
        = (SimEngine.mk e.method e.s_0
          ⟨e.kwargs.sigma, e.kwargs.r, rho2, e.kwargs.extraKeys⟩).prc_generator u x) := by
  have hsetup : ∀ u : List ℝ,
      e.prcSetup u = .ok ⟨1, diffPrepend0 u, s.asArray, rv, .one⟩ := by
    intro u
    rw [SimEngine.prcSetup]
    simp [hm, hs, hr, h1]
  refine ⟨?_, hsetup, ?_⟩
  · intro u x
    rw [SimEngine.epsilonOf, hsetup u]
    rfl
  · intro rho1 rho2 u x
    rw [SimEngine.prc_generator, SimEngine.prc_generator,
      SimEngine.prcSetup, SimEngine.prcSetup]
    simp [hm, hs, hr, h1]

/-- Witness for C6 at a concrete single-asset engine. -/
theorem dim_one_shocks_unchanged_witness :
    ((SigmaParam.scalar 0.2).nDimVal = 1) ∧
    (SimEngine.mk "GeoBrownian" 100 kwargsBasic).epsilonOf [1] [[0]]
      = .ok [[0]] :=
  ⟨rfl, (dim_one_shocks_unchanged (SimEngine.mk "GeoBrownian" 100 kwargsBasic)
    (.scalar 0.2) 0.03 rfl rfl rfl rfl).1 [1] [[0]]⟩

/-- A three-by-three identity correlation passed as a numpy matrix. -/
def rho3 : RhoParam := ⟨true, [[1, 0, 0], [0, 1, 0], [0, 0, 1]]⟩

/-- A two-asset sigma list combined with the three-by-three rho above. -/
def kwargsTwoByThree : Kwargs := ⟨some (.list [0.2, 0.2]), some 0.03, some rho3, []⟩

/-- Counterexample to C2 as stated: constructing with a 2-asset sigma list
and a 3-by-3 rho matrix does not fail at construction time; the constructor
accepts the configuration unchanged. -/
theorem dimension_check_not_at_construction :
    simEngineInit "GeoBrownian" 100 kwargsTwoByThree
      = .ok ⟨"GeoBrownian", 100, kwargsTwoByThree⟩ := by
  rw [simEngineInit]
  rfl

/-- C2 amended: the rho-dimension check does not run at construction time;
instead, when a multi-asset simulate call is made with a decomposable
numpy-matrix rho whose row count differs from the dimension count, the call
fails during the setup phase, before the random draws are consumed, with the
dimension ValueError, an error distinct from the decomposition error. -/
theorem dimension_error_at_simulate (s_0 : ℝ) (k : Kwargs) (e : SimEngine)
    (s : SigmaParam) (rho : RhoParam) (l : List (List ℝ)) (rv : ℝ)
    (hinit : simEngineInit "GeoBrownian" s_0 k = .ok e)
    (hs : k.sigma = some s) (h1 : 1 < s.nDimVal) (hr : k.r = some rv)
    (hrho : k.rho = some rho) (hmat : rho.isNpMatrix = true)
    (hchol : npCholesky rho.data = .ok l)
    (hdim : rho.data.length ≠ s.nDimVal) :
    (∀ u : List ℝ,
      e.prcSetup u = .error (.valueError "Illegal input dimension of rho")) ∧
    (∀ (u : List ℝ) (x : List (List ℝ)),
      e.prc_generator u x = .error (.valueError "Illegal input dimension of rho")) ∧
    (∀ msg, (PyError.valueError "Illegal input dimension of rho") ≠ .linAlgError msg) := by
  have he : e = ⟨"GeoBrownian", s_0, k⟩ := by
    rw [simEngineInit] at hinit
    simp only [fullMethods, List.mem_singleton, if_pos rfl] at hinit
    by_cases hkeys : k.keys.all (fun key => (fullKwargMap "GeoBrownian").contains key) = true
    · rw [if_pos hkeys] at hinit
      cases hinit
      rfl
    · rw [if_neg hkeys] at hinit
      cases hinit
  subst he
  have hsetup : ∀ u : List ℝ,
      SimEngine.prcSetup ⟨"GeoBrownian", s_0, k⟩ u
        = .error (.valueError "Illegal input dimension of rho") := by
    intro u
    rw [SimEngine.prcSetup]
    simp only [hs, hr, hrho, hchol, hmat, gt_iff_lt, h1, Bool.true_eq_false,
      if_false, if_true, ite_true, ite_false, if_pos rfl, if_pos h1]
    rw [if_pos (Or.inr hdim)]
  refine ⟨hsetup, ?_, ?_⟩
  · intro u x
    rw [SimEngine.prc_generator, hsetup u]
  · intro msg
    simp

theorem cholL_nil : cholL [] = some [] := by
  rw [cholL]

theorem cholL_one : cholL [[1]] = some [[Real.sqrt 1]] := by
  rw [cholL]
  rw [if_pos (show (0 : ℝ) < ([(1 : ℝ)] : List ℝ).headI by norm_num [List.headI])]
  have h : schurL ([(1 : ℝ)] : List ℝ).headI
      (List.map (fun rr => rr.headI) ([] : List (List ℝ)))
      (List.map (fun rr => rr.tail) ([] : List (List ℝ))) = [] := by
    simp [schurL]
  rw [h, cholL_nil]
  simp

theorem npCholesky_one : npCholesky [[1]] = .ok [[Real.sqrt 1]] := by
  rw [npCholesky, if_pos (by rfl), cholL_one]

/-- A one-by-one numpy-matrix rho, used with a two-asset sigma. -/
def rhoOneMat : RhoParam := ⟨true, [[1]]⟩

/-- Keyword record with a two-asset sigma and the one-by-one rho above. -/
def kwargsTwoByOne : Kwargs := ⟨some (.list [0.2, 0.2]), some 0.03, some rhoOneMat, []⟩

/-- Witness for the amended C2: on the concrete two-asset engine with a
decomposable one-by-one numpy-matrix rho the setup phase raises the
dimension ValueError. -/
theorem dimension_error_at_simulate_witness :
    ((SigmaParam.list [0.2, 0.2]).nDimVal = 2) ∧
    SimEngine.prcSetup ⟨"GeoBrownian", 100, kwargsTwoByOne⟩ [1]
      = .error (.valueError "Illegal input dimension of rho") :=
  ⟨rfl, (dimension_error_at_simulate 100 kwargsTwoByOne
    ⟨"GeoBrownian", 100, kwargsTwoByOne⟩ (.list [0.2, 0.2]) rhoOneMat
    [[Real.sqrt 1]] 0.03 (by rw [simEngineInit]; rfl) rfl (by decide)
    rfl rfl rfl npCholesky_one (by decide)).1 [1]⟩

/-- C10: for a multi-asset simulation the Cholesky decomposition of rho is
attempted before the type and dimension checks run: a decomposable rho that
is not a numpy matrix (for instance a plain ndarray, even square, correctly
sized and positive-definite) makes the simulate call fail with the type
ValueError, while a rho that fails decomposition surfaces as the
decomposition error no matter its type or shape, and every decomposition
failure is a linear-algebra error. -/
theorem rho_type_check_after_cholesky (e : SimEngine) (s : SigmaParam) (rv : ℝ)
    (rho : RhoParam)
    (hm : e.method = "GeoBrownian") (hs : e.kwargs.sigma = some s)
    (h1 : 1 < s.nDimVal) (hr : e.kwargs.r = some rv)
    (hrho : e.kwargs.rho = some rho) :
    (∀ l, npCholesky rho.data = .ok l → rho.isNpMatrix = false →
      ∀ (u : List ℝ) (x : List (List ℝ)),
        e.prc_generator u x = .error (.valueError "Illegal input type of rho")) ∧
    (∀ err, npCholesky rho.data = .error err →
      ∀ (u : List ℝ) (x : List (List ℝ)), e.prc_generator u x = .error err) ∧
    (∀ err, npCholesky rho.data = .error err → ∃ msg, err = .linAlgError msg) := by
  refine ⟨?_, ?_, ?_⟩
  · intro l hchol hnm u x
    rw [SimEngine.prc_generator, SimEngine.prcSetup]
    simp [hm, hs, hr, hrho, hchol, hnm, h1]
  · intro err hchol u x
    rw [SimEngine.prc_generator, SimEngine.prcSetup]
    simp [hm, hs, hr, hrho, hchol, h1]
  · intro err hchol
    rw [npCholesky] at hchol
    by_cases hsq : isSquareB rho.data = true
    · rw [if_pos hsq] at hchol
      cases hcl : cholL rho.data with
      | some l => rw [hcl] at hchol; cases hchol
      | none =>
        rw [hcl] at hchol
        simp only [Except.error.injEq] at hchol
        exact ⟨_, hchol.symm⟩
    · rw [if_neg hsq] at hchol
      simp only [Except.error.injEq] at hchol
      exact ⟨_, hchol.symm⟩

/-- A one-by-one plain-ndarray rho (not a numpy matrix). -/
def rhoOnePlain : RhoParam := ⟨false, [[1]]⟩

/-- Keyword record with a two-asset sigma and the plain-ndarray rho above. -/
def kwargsPlainRho : Kwargs := ⟨some (.list [0.2, 0.2]), some 0.03, some rhoOnePlain, []⟩

/-- Witness for C10: the concrete engine with a decomposable plain-ndarray
rho fails its simulate call with the type ValueError. -/
theorem rho_type_check_after_cholesky_witness :
    (rhoOnePlain.isNpMatrix = false) ∧
    SimEngine.prc_generator ⟨"GeoBrownian", 100, kwargsPlainRho⟩ [1] [[0, 0]]
      = .error (.valueError "Illegal input type of rho") :=
  ⟨rfl, (rho_type_check_after_cholesky ⟨"GeoBrownian", 100, kwargsPlainRho⟩
    (.list [0.2, 0.2]) 0.03 rhoOnePlain rfl rfl (by decide) rfl rfl).1
    [[Real.sqrt 1]] npCholesky_one rfl [1] [[0, 0]]⟩

theorem zipWith3_length (f : ℝ → ℝ → ℝ → ℝ) :
    ∀ (a b c : List ℝ),
    (zipWith3 f a b c).length = min a.length (min b.length c.length) := by
  intro a
  induction a with
  | nil => intro b c; cases b <;> cases c <;> simp [zipWith3]
  | cons x xs ih =>
    intro b c
    cases b with
    | nil => cases c <;> simp [zipWith3]
    | cons y ys =>
      cases c with
      | nil => simp [zipWith3]
      | cons z zs =>
        simp only [zipWith3, List.length_cons, ih ys zs]
        omega

theorem simLoopGo_rows (r : ℝ) (sigma : List ℝ) (eps : ℕ → List ℝ) (n : ℕ)
    (hσ : sigma.length = n) (he : ∀ i, (eps i).length = n) :
    ∀ (tD : List ℝ) (sArr : List ℝ) (i : ℕ), sArr.length = n →
    ∀ row ∈ simLoopGo r sigma eps sArr tD i, row.length = n := by
  intro tD
  induction tD with
  | nil => intro sArr i _ row hrow; simp [simLoopGo] at hrow
  | cons t ts ih =>
    intro sArr i hsA row hrow
    have hstep : (stepVec r t sArr sigma (eps i)).length = n := by
      simp [stepVec, zipWith3_length, hsA, hσ, he i]
    simp only [simLoopGo, List.mem_cons] at hrow
    rcases hrow with rfl | h
    · exact hstep
    · exact ih _ (i + 1) hstep row h

theorem diffPrepend0_length (u : List ℝ) : (diffPrepend0 u).length = u.length := by
  simp [diffPrepend0]

theorem getCol_length (m : List (List ℝ)) (j : ℕ) :
    (getCol m j).length = m.length := by
  simp [getCol]

theorem matMulL_length (a b : List (List ℝ)) :
    (matMulL a b).length = a.length := by
  simp [matMulL]

theorem cholL_length_aux : ∀ (n : ℕ) (d l : List (List ℝ)), d.length ≤ n →
    cholL d = some l → l.length = d.length := by
  intro n
  induction n with
  | zero =>
    intro d l hd hl
    cases d with
    | nil => rw [cholL] at hl; cases hl; rfl
    | cons row rows => simp at hd
  | succ m ih =>
    intro d l hd hl
    cases d with
    | nil => rw [cholL] at hl; cases hl; rfl
    | cons row rows =>
      rw [cholL] at hl
      by_cases hpos : 0 < row.headI
      · rw [if_pos hpos] at hl
        cases hcl : cholL (schurL row.headI (rows.map fun rr => rr.headI)
            (rows.map fun rr => rr.tail)) with
        | none => rw [hcl] at hl; exact Option.noConfusion hl
        | some l2 =>
          rw [hcl] at hl
          have hlen2 : l2.length = rows.length := by
            have h3 := ih _ l2 (by
              simp only [schurL, List.length_zipWith, List.length_map, min_self]
              simp only [List.length_cons] at hd
              omega) hcl
            simpa [schurL] using h3
          simp only [Option.some.injEq] at hl
          subst hl
          simp [List.length_zipWith, hlen2]
      · rw [if_neg hpos] at hl
        exact Option.noConfusion hl

theorem cholL_length (d l : List (List ℝ)) (h : cholL d = some l) :
    l.length = d.length :=
  cholL_length_aux d.length d l le_rfl h

theorem npCholesky_ok_chol (d : List (List ℝ)) (l : List (List ℝ))
    (h : npCholesky d = .ok l) : cholL d = some l := by
  rw [npCholesky] at h
  by_cases hsq : isSquareB d = true
  · rw [if_pos hsq] at h
    cases hcl : cholL d with
    | some l2 =>
      rw [hcl] at h
      simp only [Except.ok.injEq] at h
      rw [h]
    | none => rw [hcl] at h; exact Except.noConfusion h
  · rw [if_neg hsq] at h
    exact Except.noConfusion h

theorem prcSetup_ok_inv (e : SimEngine) (u : List ℝ) (sd : SetupData)
    (s : SigmaParam)
    (hm : e.method = "GeoBrownian") (hs : e.kwargs.sigma = some s)
    (hok : e.prcSetup u = .ok sd) :
    sd.nDim = s.nDimVal ∧ sd.tDiff = diffPrepend0 u ∧ sd.sigmaArray = s.asArray ∧
    (sd.factor = .one ∨
      ∃ (rho : RhoParam) (l : List (List ℝ)), cholL rho.data = some l ∧
        rho.data.length = s.nDimVal ∧ sd.factor = .mat l) := by
  rw [SimEngine.prcSetup] at hok
  rw [if_pos (by rw [hm])] at hok
  simp only [hs] at hok
  cases hr : e.kwargs.r with
  | none => rw [hr] at hok; exact Except.noConfusion hok
  | some rv =>
    simp only [hr] at hok
    by_cases h1 : s.nDimVal > 1
    · rw [if_pos h1] at hok
      cases hrho : e.kwargs.rho with
      | none => rw [hrho] at hok; exact Except.noConfusion hok
      | some rho =>
        simp only [hrho] at hok
        cases hch : npCholesky rho.data with
        | error err => simp only [hch] at hok; exact Except.noConfusion hok
        | ok l =>
          simp only [hch] at hok
          by_cases hnm : rho.isNpMatrix = false
          · rw [if_pos hnm] at hok; exact Except.noConfusion hok
          · rw [if_neg hnm] at hok
            by_cases hdim : rho.data.length ≠ colsOf rho.data ∨
                rho.data.length ≠ s.nDimVal
            · rw [if_pos hdim] at hok; exact Except.noConfusion hok
            · rw [if_neg hdim] at hok
              push_neg at hdim
              simp only [Except.ok.injEq] at hok
              subst hok
              exact ⟨rfl, rfl, rfl, Or.inr ⟨rho, l, npCholesky_ok_chol _ _ hch,
                hdim.2, rfl⟩⟩
    · rw [if_neg h1] at hok
      simp only [Except.ok.injEq] at hok
      subst hok
      exact ⟨rfl, rfl, rfl, Or.inl rfl⟩

/-- C8: whenever a simulate call succeeds on a configuration whose sigma
array is as long as the derived dimension count and on a raw draw matrix
with one row per dimension, the returned path array has exactly one row per
evaluation time and one column per asset, for one as well as several
assets. -/
theorem output_shape_invariant (e : SimEngine) (s : SigmaParam)
    (u : List ℝ) (x : List (List ℝ)) (p : List (List ℝ))
    (hm : e.method = "GeoBrownian") (hs : e.kwargs.sigma = some s)
    (hσ : s.asArray.length = s.nDimVal) (hx : x.length = s.nDimVal)
    (_hT : 1 ≤ u.length)
    (hok : e.prc_generator u x = .ok p) :
    p.length = u.length ∧ ∀ row ∈ p, row.length = s.nDimVal := by
  rw [SimEngine.prc_generator] at hok
  cases hsd : e.prcSetup u with
  | error err => rw [hsd] at hok; exact Except.noConfusion hok
  | ok sd =>
    rw [hsd] at hok
    simp only [Except.ok.injEq] at hok
    subst hok
    obtain ⟨hn, ht, hsa, hf⟩ := prcSetup_ok_inv e u sd s hm hs hsd
    have heps : (applyFactor sd.factor x).length = s.nDimVal := by
      rcases hf with hone | ⟨rho, l, hcl, hlen, hmat2⟩
      · rw [hone]; exact hx
      · rw [hmat2]
        simp only [applyFactor, matMulL_length]
        rw [cholL_length _ _ hcl, hlen]
    constructor
    · rw [fastSimLoopGeoBrownian, simLoopGo_length, ht, diffPrepend0_length]
    · intro row hrow
      refine simLoopGo_rows sd.r sd.sigmaArray _ s.nDimVal ?_ ?_ sd.tDiff _ 0 ?_ row hrow
      · rw [hsa, hσ]
      · intro i; rw [getCol_length]; exact heps
      · simp [hn]

/-- Witness for C8: a concrete single-asset simulate call with one
evaluation time returns one row of one entry. -/
theorem output_shape_invariant_witness :
    ([stepVec 0.03 (1 - 0) (List.replicate 1 100) [0.2] (getCol [[0]] 0)] :
        List (List ℝ)).length = ([1] : List ℝ).length ∧
    ∀ row ∈ ([stepVec 0.03 (1 - 0) (List.replicate 1 100) [0.2] (getCol [[0]] 0)] :
        List (List ℝ)), row.length = (SigmaParam.scalar 0.2).nDimVal :=
  output_shape_invariant ⟨"GeoBrownian", 100, kwargsBasic⟩ (.scalar 0.2)
    [1] [[0]] _ rfl rfl rfl rfl (by norm_num) rfl

/-- Entry (i, j) of a row-major matrix, reading 0 outside the bounds. -/
def entryL (a : List (List ℝ)) (i j : ℕ) : ℝ := (a.getD i []).getD j 0

/-- Symmetry of a row-major matrix within its bounds. -/
def symmL (a : List (List ℝ)) : Prop :=
  ∀ i j, i < a.length → j < a.length → entryL a i j = entryL a j i

/-- Squareness of a row-major matrix: every row is as long as the matrix. -/
def isSquareL (a : List (List ℝ)) : Prop := ∀ row ∈ a, row.length = a.length

/-- Matrix-vector product over row-major lists. -/
def mulVecL (a : List (List ℝ)) (x : List ℝ) : List ℝ := a.map (fun row => dotL row x)

/-- The quadratic form of a row-major matrix. -/
def quadFormL (a : List (List ℝ)) (x : List ℝ) : ℝ := dotL x (mulVecL a x)

theorem dotL_nil_left (w : List ℝ) : dotL [] w = 0 := by simp [dotL]

theorem dotL_nil_right (v : List ℝ) : dotL v [] = 0 := by simp [dotL]

theorem dotL_cons (a b : ℝ) (v w : List ℝ) :
    dotL (a :: v) (b :: w) = a * b + dotL v w := by simp [dotL]

theorem dotL_comm : ∀ (v w : List ℝ), dotL v w = dotL w v := by
  intro v
  induction v with
  | nil => intro w; simp [dotL]
  | cons a as ih =>
    intro w
    cases w with
    | nil => simp [dotL]
    | cons b bs =>
      rw [dotL_cons, dotL_cons, ih bs]
      ring

theorem dotL_map_head_tail (x0 : ℝ) (w : List ℝ) :
    ∀ (rows : List (List ℝ)) (y : List ℝ), (∀ rr ∈ rows, rr ≠ []) →
    dotL y (rows.map (fun rr => dotL rr (x0 :: w)))
      = x0 * dotL y (rows.map (fun rr => rr.headI))
        + dotL y (rows.map (fun rr => dotL rr.tail w)) := by
  intro rows
  induction rows with
  | nil => intro y _; simp [dotL_nil_right]
  | cons rr rest ih =>
    intro y hne
    cases y with
    | nil => simp [dotL_nil_left]
    | cons y0 ys =>
      obtain ⟨c0, tt, rfl⟩ : ∃ c0 tt, rr = c0 :: tt := by
        cases rr with
        | nil => exact absurd rfl (hne [] (List.mem_cons_self _ _))
        | cons c0 tt => exact ⟨c0, tt, rfl⟩
      simp only [List.map_cons, List.headI_cons, List.tail_cons, dotL_cons]
      rw [ih ys (fun r hr => hne r (List.mem_cons_of_mem _ hr))]
      ring

theorem dotL_zipWith_sub (a k : ℝ) :
    ∀ (c bi y : List ℝ), bi.length = c.length →
    dotL (List.zipWith (fun cj bij => bij - k * cj / a) c bi) y
      = dotL bi y - k * dotL c y / a := by
  intro c
  induction c with
  | nil =>
    intro bi y hlen
    have hbi : bi = [] := List.length_eq_zero.mp (by simpa using hlen)
    subst hbi
    simp [dotL_nil_left]
  | cons c0 ct ih =>
    intro bi y hlen
    cases bi with
    | nil => simp at hlen
    | cons b0 bt =>
      cases y with
      | nil => simp [dotL_nil_right]
      | cons y0 ys =>
        simp only [List.zipWith_cons_cons, dotL_cons]
        rw [ih bt ys (by simpa using hlen)]
        ring

theorem dotL_map_schur_rows (a : ℝ) (c w : List ℝ) :
    ∀ (d : List ℝ) (b : List (List ℝ)) (y : List ℝ),
    d.length = b.length → (∀ bi ∈ b, bi.length = c.length) →
    dotL y ((List.zipWith (fun ci bi =>
        List.zipWith (fun cj bij => bij - ci * cj / a) c bi) d b).map
        (fun si => dotL si w))
      = dotL y (b.map (fun bi => dotL bi w)) - dotL d y * dotL c w / a := by
  intro d
  induction d with
  | nil =>
    intro b y hlen _
    have hb : b = [] := List.length_eq_zero.mp (by simpa using hlen.symm)
    subst hb
    simp [dotL_nil_left, dotL_nil_right]
  | cons d0 dt ih =>
    intro b y hlen hb
    cases b with
    | nil => simp at hlen
    | cons b0 bt =>
      cases y with
      | nil => simp [dotL_nil_left, dotL_nil_right]
      | cons y0 ys =>
        simp only [List.zipWith_cons_cons, List.map_cons, dotL_cons]
        rw [dotL_zipWith_sub a d0 c b0 w (hb b0 (List.mem_cons_self _ _))]
        rw [ih bt ys (by simpa using hlen)
          (fun bi h => hb bi (List.mem_cons_of_mem _ h))]
        ring

theorem quadFormL_schur (a : ℝ) (c : List ℝ) (b : List (List ℝ)) (y : List ℝ)
    (hlen : c.length = b.length) (hb : ∀ bi ∈ b, bi.length = c.length) :
    quadFormL (schurL a c b) y = quadFormL b y - dotL c y * dotL c y / a := by
  rw [quadFormL, quadFormL, mulVecL, mulVecL, schurL]
  exact dotL_map_schur_rows a c y c b y hlen hb

theorem headI_eq_getD (l : List ℝ) (h : l ≠ []) : l.headI = l.getD 0 0 := by
  cases l with
  | nil => exact absurd rfl h
  | cons a as => rfl

theorem tail_getD (l : List ℝ) (j : ℕ) : l.tail.getD j 0 = l.getD (j + 1) 0 := by
  cases l <;> rfl

theorem first_col_eq_first_row (a0 : ℝ) (bvec : List ℝ) (rows : List (List ℝ))
    (hsq : isSquareL ((a0 :: bvec) :: rows))
    (hsym : symmL ((a0 :: bvec) :: rows)) :
    rows.map (fun rr => rr.headI) = bvec := by
  have hlb : bvec.length = rows.length := by
    have h := hsq (a0 :: bvec) (List.mem_cons_self _ _)
    simp only [List.length_cons] at h
    omega
  apply List.ext_getElem (by simp [hlb])
  intro i h1 h2
  have hi : i < rows.length := by simpa using h1
  have hmem : rows[i] ∈ rows := List.getElem_mem _
  have hne : rows[i] ≠ [] := by
    intro hnil
    have h := hsq rows[i] (List.mem_cons_of_mem _ hmem)
    rw [hnil] at h
    simp at h
  have hsymi := hsym (i + 1) 0 (by simp; omega) (by simp)
  have e1 : entryL ((a0 :: bvec) :: rows) (i + 1) 0 = rows[i].getD 0 0 := by
    rw [entryL, List.getD_cons_succ, List.getD_eq_getElem _ _ hi]
  have e2 : entryL ((a0 :: bvec) :: rows) 0 (i + 1) = bvec.getD i 0 := by
    rw [entryL]
    rfl
  rw [e1, e2] at hsymi
  rw [List.getElem_map]
  rw [headI_eq_getD rows[i] hne, hsymi, List.getD_eq_getElem _ _ h2]

theorem entryL_schur (a0 : ℝ) (rows : List (List ℝ)) (i j : ℕ)
    (hi : i < rows.length) (hj : j < rows.length)
    (hlen : ∀ rr ∈ rows, rr.length = rows.length + 1) :
    entryL (schurL a0 (rows.map fun rr => rr.headI)
        (rows.map fun rr => rr.tail)) i j
      = rows[i].tail.getD j 0 - rows[i].headI * rows[j].headI / a0 := by
  have hBi : rows[i].tail.length = rows.length := by
    have h := hlen rows[i] (List.getElem_mem hi)
    simp [h]
  have hjt : j < rows[i].tail.length := by rw [hBi]; exact hj
  have houter : (List.zipWith (fun ci bi => List.zipWith
      (fun cj bij => bij - ci * cj / a0) (List.map (fun rr => rr.headI) rows) bi)
      (List.map (fun rr => rr.headI) rows)
      (List.map (fun rr => rr.tail) rows)).getD i []
      = List.zipWith (fun cj bij => bij - rows[i].headI * cj / a0)
          (List.map (fun rr => rr.headI) rows) rows[i].tail := by
    rw [List.getD_eq_getElem _ _ (by
      simpa only [List.length_zipWith, List.length_map, min_self] using hi)]
    rw [List.getElem_zipWith]
    simp only [List.getElem_map]
  simp only [entryL, schurL]
  rw [houter]
  rw [List.getD_eq_getElem (List.zipWith
      (fun cj bij => bij - rows[i].headI * cj / a0)
      (List.map (fun rr => rr.headI) rows) rows[i].tail) 0 (by
    simpa only [List.length_zipWith, List.length_map, hBi, min_self] using hj)]
  rw [List.getElem_zipWith]
  simp only [List.getElem_map]
  rw [List.getD_eq_getElem _ _ hjt]

theorem schurL_length (a0 : ℝ) (rows : List (List ℝ)) :
    (schurL a0 (rows.map fun rr => rr.headI)
      (rows.map fun rr => rr.tail)).length = rows.length := by
  simp [schurL, List.length_zipWith]

theorem schur_square (a0 : ℝ) (rows : List (List ℝ))
    (hlen : ∀ rr ∈ rows, rr.length = rows.length + 1) :
    isSquareL (schurL a0 (rows.map fun rr => rr.headI)
      (rows.map fun rr => rr.tail)) := by
  intro row hrow
  rw [schurL_length]
  rw [schurL] at hrow
  obtain ⟨i, hi, hrw⟩ := List.mem_iff_getElem.mp hrow
  have hi2 : i < rows.length := by
    simpa only [List.length_zipWith, List.length_map, min_self] using hi
  have hrow_eq : row = List.zipWith
      (fun cj bij => bij - rows[i].headI * cj / a0)
      (List.map (fun rr => rr.headI) rows) rows[i].tail := by
    rw [← hrw, List.getElem_zipWith]
    simp only [List.getElem_map]
  rw [hrow_eq]
  have hti : rows[i].tail.length = rows.length := by
    have h := hlen rows[i] (List.getElem_mem hi2)
    simp [h]
  simp [List.length_zipWith, hti]

theorem schur_symm (a0 : ℝ) (bvec : List ℝ) (rows : List (List ℝ))
    (hsq : isSquareL ((a0 :: bvec) :: rows))
    (hsym : symmL ((a0 :: bvec) :: rows)) :
    symmL (schurL a0 (rows.map fun rr => rr.headI)
      (rows.map fun rr => rr.tail)) := by
  have hlen : ∀ rr ∈ rows, rr.length = rows.length + 1 := by
    intro rr hrr
    have h := hsq rr (List.mem_cons_of_mem _ hrr)
    simpa using h
  intro i j hi hj
  rw [schurL_length] at hi hj
  rw [entryL_schur a0 rows i j hi hj hlen, entryL_schur a0 rows j i hj hi hlen]
  have eA : ∀ (p q : ℕ) (hp : p < rows.length),
      entryL ((a0 :: bvec) :: rows) (p + 1) q = rows[p].getD q 0 := by
    intro p q hp
    rw [entryL, List.getD_cons_succ, List.getD_eq_getElem _ _ hp]
  have h1 : rows[i].getD (j + 1) 0 = rows[j].getD (i + 1) 0 := by
    rw [← eA i (j + 1) hi, ← eA j (i + 1) hj]
    exact hsym (i + 1) (j + 1) (by simp only [List.length_cons]; omega)
      (by simp only [List.length_cons]; omega)
  rw [tail_getD, tail_getD, h1, mul_comm]

theorem cholL_psd : ∀ (n : ℕ) (d : List (List ℝ)), d.length ≤ n →
    isSquareL d → symmL d → ∀ l, cholL d = some l →
    ∀ x : List ℝ, 0 ≤ quadFormL d x := by
  intro n
  induction n with
  | zero =>
    intro d hd _ _ l _ x
    cases d with
    | nil => simp [quadFormL, mulVecL, dotL_nil_right]
    | cons row rows => simp at hd
  | succ m ih =>
    intro d hd hsq hsym l hl x
    cases d with
    | nil => simp [quadFormL, mulVecL, dotL_nil_right]
    | cons row rows =>
      obtain ⟨a0, bvec, rfl⟩ : ∃ a0 bvec, row = a0 :: bvec := by
        cases row with
        | nil =>
          have h := hsq [] (List.mem_cons_self _ _)
          simp at h
        | cons a0 bvec => exact ⟨a0, bvec, rfl⟩
      rw [cholL] at hl
      by_cases hpos : 0 < (a0 :: bvec).headI
      · rw [if_pos hpos] at hl
        have hpos0 : 0 < a0 := by simpa using hpos
        cases hcl : cholL (schurL (a0 :: bvec).headI
            (rows.map fun rr => rr.headI) (rows.map fun rr => rr.tail)) with
        | none => rw [hcl] at hl; exact Option.noConfusion hl
        | some l2 =>
          rw [show (a0 :: bvec).headI = a0 from rfl] at hcl
          have hlenrows : ∀ rr ∈ rows, rr.length = rows.length + 1 := by
            intro rr hrr
            have h := hsq rr (List.mem_cons_of_mem _ hrr)
            simpa using h
          have hne : ∀ rr ∈ rows, rr ≠ [] := by
            intro rr hrr hnil
            have h := hlenrows rr hrr
            rw [hnil] at h
            simp at h
          have hS : ∀ y : List ℝ, 0 ≤ quadFormL (schurL a0
              (rows.map fun rr => rr.headI) (rows.map fun rr => rr.tail)) y := by
            intro y
            refine ih _ ?_ (schur_square a0 rows hlenrows)
              (schur_symm a0 bvec rows hsq hsym) l2 hcl y
            rw [schurL_length]
            simp only [List.length_cons] at hd
            omega
          have hccol : rows.map (fun rr => rr.headI) = bvec :=
            first_col_eq_first_row a0 bvec rows hsq hsym
          cases x with
          | nil => simp [quadFormL, dotL_nil_left]
          | cons x0 y =>
            have hQ : quadFormL ((a0 :: bvec) :: rows) (x0 :: y)
                = x0 * (a0 * x0 + dotL bvec y)
                  + (x0 * dotL y bvec
                     + quadFormL (rows.map fun rr => rr.tail) y) := by
              rw [quadFormL, mulVecL, List.map_cons, dotL_cons, dotL_cons]
              rw [dotL_map_head_tail x0 y rows y hne, hccol]
              rw [quadFormL, mulVecL, List.map_map]
              rfl
            have hSchur : quadFormL (schurL a0 (rows.map fun rr => rr.headI)
                (rows.map fun rr => rr.tail)) y
                = quadFormL (rows.map fun rr => rr.tail) y
                  - dotL (rows.map fun rr => rr.headI) y
                    * dotL (rows.map fun rr => rr.headI) y / a0 := by
              refine quadFormL_schur a0 _ _ y (by simp) ?_
              intro bi hbi
              obtain ⟨rr, hrr, rfl⟩ := List.mem_map.mp hbi
              have h := hlenrows rr hrr
              simp [h]
            have hKform : 0 ≤ a0 * (x0 + dotL bvec y / a0) ^ 2 :=
              mul_nonneg hpos0.le (sq_nonneg _)
            have hexp : a0 * (x0 + dotL bvec y / a0) ^ 2
                = a0 * x0 ^ 2 + 2 * x0 * dotL bvec y
                  + dotL bvec y * dotL bvec y / a0 := by
              field_simp
              ring
            have hSy := hS y
            rw [hSchur] at hSy
            rw [hccol] at hSy
            rw [hQ, dotL_comm y bvec]
            nlinarith [hKform, hexp, hSy]
      · rw [if_neg hpos] at hl
        exact Option.noConfusion hl

/-- C7: a multi-asset simulate call whose correlation matrix is square and
symmetric but not positive-semidefinite (some vector has a negative
quadratic form) fails with the decomposition error rather than returning
any path array. -/
theorem non_psd_rho_decomposition_error (e : SimEngine) (s : SigmaParam)
    (rv : ℝ) (rho : RhoParam) (v : List ℝ)
    (hm : e.method = "GeoBrownian") (hs : e.kwargs.sigma = some s)
    (h1 : 1 < s.nDimVal) (hr : e.kwargs.r = some rv)
    (hrho : e.kwargs.rho = some rho)
    (hsq : isSquareL rho.data) (hsym : symmL rho.data)
    (hneg : quadFormL rho.data v < 0) :
    ∀ (u : List ℝ) (x : List (List ℝ)),
      e.prc_generator u x
        = .error (.linAlgError "Matrix is not positive definite") := by
  have hchol : cholL rho.data = none := by
    cases hcl : cholL rho.data with
    | none => rfl
    | some l =>
      have h := cholL_psd rho.data.length rho.data le_rfl hsq hsym l hcl v
      linarith
  have hnp : npCholesky rho.data
      = .error (.linAlgError "Matrix is not positive definite") := by
    rw [npCholesky]
    rw [if_pos (by
      rw [isSquareB, List.all_eq_true]
      intro row hrow
      simpa using hsq row hrow)]
    rw [hchol]
  intro u x
  rw [SimEngine.prc_generator, SimEngine.prcSetup]
  simp [hm, hs, hr, hrho, hnp, h1]

/-- The non-positive-semidefinite example matrix of the spec, as a numpy
matrix. -/
def rhoBad : RhoParam := ⟨true, [[1, 2], [2, 1]]⟩

/-- Keyword record with a two-asset sigma and the non-PSD rho above. -/
def kwargsBadRho : Kwargs := ⟨some (.list [0.2, 0.2]), some 0.03, some rhoBad, []⟩

/-- Witness for C7: the concrete matrix [[1, 2], [2, 1]] with test vector
[1, -1] makes the simulate call fail with the decomposition error. -/
theorem non_psd_rho_decomposition_error_witness :
    (quadFormL [[1, 2], [2, 1]] [1, -1] < 0) ∧
    SimEngine.prc_generator ⟨"GeoBrownian", 100, kwargsBadRho⟩ [1] [[0, 0], [0, 0]]
      = .error (.linAlgError "Matrix is not positive definite") := by
  have hneg : quadFormL [[1, 2], [2, 1]] [1, -1] < 0 := by
    norm_num [quadFormL, mulVecL, dotL]
  refine ⟨hneg, ?_⟩
  refine non_psd_rho_decomposition_error ⟨"GeoBrownian", 100, kwargsBadRho⟩
    (.list [0.2, 0.2]) 0.03 rhoBad [1, -1] rfl rfl (by decide) rfl rfl
    ?_ ?_ hneg [1] [[0, 0], [0, 0]]
  · intro row hrow
    simp only [rhoBad] at hrow ⊢
    rcases List.mem_cons.mp hrow with rfl | hrow2
    · rfl
    · rcases List.mem_cons.mp hrow2 with rfl | hrow3
      · rfl
      · simp at hrow3
  · intro i j hi hj
    simp only [rhoBad, List.length_cons, List.length_nil] at hi hj
    interval_cases i <;> interval_cases j <;>
      norm_num [entryL, rhoBad, List.getD_cons_zero, List.getD_cons_succ]

end SimPricing
